import Mathlib

/-!
Verification of the address parsing, canonicalization, variant-generation and
lookup-resolution core of the berkeley-housing-analysis repository.

Strings are modelled as `List Char`; the Python string operations used by the
source (`strip`, `split`, `upper`, `lower`, `title`, `' '.join`) are embedded
as executable functions over character lists, restricted to their ASCII
behaviour.  Source files embedded here:
- src/modules/address_normalizer.py (parse_address, normalize_address,
  get_street_name_variations, get_street_type_variations,
  generate_address_variations)
- src/modules/geocoder.py (normalize_street_name, normalize_address_for_lookup,
  geocode_from_lookup, validate_coordinates, add_manual_geocode)
-/

namespace Berkeley

/-- Whitespace test used by the embeddings of Python `strip` and `split`
(the four ASCII whitespace characters of `Char.isWhitespace`). -/
def isWs (c : Char) : Bool :=
  c.toNat = 32 ∨ c.toNat = 9 ∨ c.toNat = 13 ∨ c.toNat = 10

/-- Negation of `isWs`, the token-character test of `split`. -/
def nws (c : Char) : Bool := !isWs c

/-- ASCII uppercase conversion, the embedding of Python `str.upper` per char. -/
def upChar (c : Char) : Char :=
  if 97 ≤ c.toNat ∧ c.toNat ≤ 122 then Char.ofNat (c.toNat - 32) else c

/-- ASCII lowercase conversion, the embedding of Python `str.lower` per char. -/
def lowChar (c : Char) : Char :=
  if 65 ≤ c.toNat ∧ c.toNat ≤ 90 then Char.ofNat (c.toNat + 32) else c

/-- ASCII letter test (the `[A-Z]` character class with `re.IGNORECASE`). -/
def isAlphaC (c : Char) : Bool :=
  (65 ≤ c.toNat ∧ c.toNat ≤ 90) || (97 ≤ c.toNat ∧ c.toNat ≤ 122)

/-- ASCII digit test (the `\d` character class / `str.isdigit`). -/
def isDigitC (c : Char) : Bool := 48 ≤ c.toNat ∧ c.toNat ≤ 57

/-! ### Whitespace splitting and trimming (Python `split()` and `strip()`) -/

/-- Fuel-indexed worker for `words`; the fuel dominates the list length, so
the `0, _ :: _` branch is never taken when called through `words`. -/
def wordsF : Nat → List Char → List (List Char)
  | _, [] => []
  | 0, _ :: _ => []
  | n + 1, c :: rest =>
    if isWs c then wordsF n rest
    else (c :: rest.takeWhile nws) :: wordsF n (rest.dropWhile nws)

/-- Whitespace-delimited tokens of a character list: the embedding of
Python `str.split()` with no argument. -/
def words (cs : List Char) : List (List Char) := wordsF cs.length cs

/-- Left trim: the embedding of the leading-whitespace half of `str.strip()`. -/
def trimLeft (cs : List Char) : List Char := cs.dropWhile isWs

/-- Right trim: the embedding of the trailing-whitespace half of `str.strip()`. -/
def trimRight (cs : List Char) : List Char := (cs.reverse.dropWhile isWs).reverse

/-- Both-ends trim: the embedding of Python `str.strip()`. -/
def trim (cs : List Char) : List Char := trimRight (trimLeft cs)

/-! ### Python string helpers: upper, lower, title -/

/-- Embedding of Python `str.upper` (ASCII). -/
def upperStr (s : List Char) : List Char := s.map upChar

/-- Embedding of Python `str.lower` (ASCII). -/
def lowerStr (s : List Char) : List Char := s.map lowChar

/-- Worker for `titleStr`: the boolean records whether the previous character
was alphabetic. -/
def titleAux : Bool → List Char → List Char
  | _, [] => []
  | prev, c :: cs =>
    if isAlphaC c then (if prev then lowChar c else upChar c) :: titleAux true cs
    else c :: titleAux false cs

/-- Embedding of Python `str.title` (ASCII). -/
def titleStr (s : List Char) : List Char := titleAux false s

/-- Shorthand turning a string literal into its character list. -/
def lc (s : String) : List Char := s.toList

/-! ### Tables from src/modules/address_normalizer.py -/

/-- The NUMBERED_STREETS bidirectional word/numeral ordinal table
(address_normalizer.py lines 13 to 26), as an association list. -/
def NUMBERED_STREETS : List (List Char × List Char) :=
  [(lc "1ST", lc "FIRST"), (lc "FIRST", lc "1ST"),
   (lc "2ND", lc "SECOND"), (lc "SECOND", lc "2ND"),
   (lc "3RD", lc "THIRD"), (lc "THIRD", lc "3RD"),
   (lc "4TH", lc "FOURTH"), (lc "FOURTH", lc "4TH"),
   (lc "5TH", lc "FIFTH"), (lc "FIFTH", lc "5TH"),
   (lc "6TH", lc "SIXTH"), (lc "SIXTH", lc "6TH"),
   (lc "7TH", lc "SEVENTH"), (lc "SEVENTH", lc "7TH"),
   (lc "8TH", lc "EIGHTH"), (lc "EIGHTH", lc "8TH"),
   (lc "9TH", lc "NINTH"), (lc "NINTH", lc "9TH"),
   (lc "10TH", lc "TENTH"), (lc "TENTH", lc "10TH"),
   (lc "11TH", lc "ELEVENTH"), (lc "ELEVENTH", lc "11TH"),
   (lc "12TH", lc "TWELFTH"), (lc "TWELFTH", lc "12TH")]

/-- The STREET_TYPES canonical-to-variations table
(address_normalizer.py lines 29 to 44). -/
def STREET_TYPES : List (List Char × List (List Char)) :=
  [(lc "ST", [lc "ST", lc "STREET", lc "STR"]),
   (lc "AV", [lc "AV", lc "AVE", lc "AVENUE"]),
   (lc "WY", [lc "WY", lc "WAY"]),
   (lc "BL", [lc "BL", lc "BLVD", lc "BOULEVARD"]),
   (lc "RD", [lc "RD", lc "ROAD"]),
   (lc "DR", [lc "DR", lc "DRIVE"]),
   (lc "LN", [lc "LN", lc "LANE"]),
   (lc "PL", [lc "PL", lc "PLACE"]),
   (lc "CT", [lc "CT", lc "COURT", lc "CRT"]),
   (lc "CR", [lc "CR", lc "CIR", lc "CIRCLE"]),
   (lc "TER", [lc "TER", lc "TERR", lc "TERRACE"]),
   (lc "PK", [lc "PK", lc "PARK", lc "PKWY", lc "PARKWAY"]),
   (lc "SQ", [lc "SQ", lc "SQUARE"]),
   (lc "HWY", [lc "HWY", lc "HIGHWAY"])]

/-- The derived reverse index TYPE_TO_CANONICAL (address_normalizer.py
lines 47 to 50): every variation maps to its canonical form.  The Python
dict has pairwise-distinct keys, so association-list lookup is faithful. -/
def TYPE_TO_CANONICAL : List (List Char × List Char) :=
  STREET_TYPES.flatMap fun p => p.2.map fun v => (v, p.1)

/-- Dict lookup in TYPE_TO_CANONICAL (`TYPE_TO_CANONICAL.get(x)` / `x in
TYPE_TO_CANONICAL`). -/
def typeToCanonical (t : List Char) : Option (List Char) :=
  List.lookup t TYPE_TO_CANONICAL

/-! ### Unit-extraction regular expression of parse_address

The source (address_normalizer.py line 87) runs
`re.search(r'(#|APT\.?|UNIT|STE\.?|SUITE)\s*([A-Z0-9-]+)\s*$', addr, re.IGNORECASE)`.
Because the pattern is anchored with `$`, a match starting at position `i`
covers exactly the suffix from `i`; `re.search` returns the leftmost such
position.  The alternation branches start with pairwise-distinct prefixes
(after resolving the optional dot greedily), and when the dotted branch
matches but its continuation fails, the dotless branch also fails (the next
character is the dot, which is neither whitespace nor in `[A-Z0-9-]`), so a
deterministic longest-marker scan is faithful. -/

/-- Characters of the `[A-Z0-9-]` class under IGNORECASE. -/
def isUnitTokChar (c : Char) : Bool := isAlphaC c || isDigitC c || c.toNat = 45

/-- Case-insensitive prefix stripping: if `upper cs` starts with the pattern
`p` (given uppercase), return the remainder of `cs`. -/
def stripCI : List Char → List Char → Option (List Char)
  | [], cs => some cs
  | _ :: _, [] => none
  | p :: ps, c :: cs => if upChar c = p then stripCI ps cs else none

/-- The marker alternation `#|APT\.?|UNIT|STE\.?|SUITE` (IGNORECASE), with
the optional dot taken greedily. -/
def markerSplit (cs : List Char) : Option (List Char) :=
  match stripCI (lc "#") cs with
  | some r => some r
  | none =>
    match stripCI (lc "APT.") cs with
    | some r => some r
    | none =>
      match stripCI (lc "APT") cs with
      | some r => some r
      | none =>
        match stripCI (lc "UNIT") cs with
        | some r => some r
        | none =>
          match stripCI (lc "STE.") cs with
          | some r => some r
          | none =>
            match stripCI (lc "STE") cs with
            | some r => some r
            | none => stripCI (lc "SUITE") cs

/-- Match of the whole unit pattern against an entire suffix: marker, then
`\s*`, then the `[A-Z0-9-]+` group, then `\s*$`.  Returns group 2. -/
def unitMatchFull (cs : List Char) : Option (List Char) :=
  match markerSplit cs with
  | none => none
  | some rest =>
    let rest2 := rest.dropWhile isWs
    let tok := rest2.takeWhile isUnitTokChar
    let rest3 := rest2.dropWhile isUnitTokChar
    if tok ≠ [] ∧ rest3.all isWs then some tok else none

/-- The embedding of `re.search` for the anchored unit pattern: the leftmost
start position whose suffix matches, with the captured group 2. -/
def unitSearch : List Char → Option (Nat × List Char)
  | [] => none
  | c :: cs =>
    match unitMatchFull (c :: cs) with
    | some g => some (0, g)
    | none =>
      match unitSearch cs with
      | some (i, g) => some (i + 1, g)
      | none => none

/-! ### parse_address and normalize_address (address_normalizer.py) -/

/-- Result dictionary of parse_address (address_normalizer.py lines 72 to 78). -/
structure ParsedAddress where
  street_number : List Char
  street_name : List Char
  street_type : List Char
  unit : List Char
  original : List Char
deriving DecidableEq, Repr

/-- Street-number test of parse_address line 99:
`parts[0].isdigit() or re.match(r'^\d+[A-Z]?$', parts[0], re.IGNORECASE)`. -/
def isNumTok (t : List Char) : Bool :=
  (!t.isEmpty && t.all isDigitC) ||
  (!(t.takeWhile isDigitC).isEmpty &&
    ((t.dropWhile isDigitC).isEmpty ||
      ((t.dropWhile isDigitC).length = 1 && (t.dropWhile isDigitC).all isAlphaC)))

/-- Consume the leading street number from the token list
(parse_address lines 98 to 101). -/
def splitNumber : List (List Char) → List Char × List (List Char)
  | [] => ([], [])
  | p0 :: rest => if isNumTok p0 then (p0, rest) else ([], p0 :: rest)

/-- Remove a recognized street type from the end of the token list
(parse_address lines 106 to 110).  On the empty list this returns empty
components, which coincides with the early return of the source. -/
def splitType (parts : List (List Char)) : List Char × List (List Char) :=
  match parts.getLast? with
  | some lt =>
    if (typeToCanonical (lt.map upChar)).isSome then (lt, parts.dropLast) else ([], parts)
  | none => ([], parts)

/-- The cleaned address after unit extraction (parse_address lines 84 to 90):
`addr = str(address).strip()`, then `addr = addr[:unit_match.start()].strip()`
when the unit pattern matched. -/
def cleanedAddr (address : List Char) : List Char :=
  let addr0 := trim address
  match unitSearch addr0 with
  | some ig => trim (addr0.take ig.1)
  | none => addr0

/-- The extracted unit (group 2 of the unit pattern), or empty. -/
def extractUnit (address : List Char) : List Char :=
  match unitSearch (trim address) with
  | some ig => ig.2
  | none => []

/-- Embedding of parse_address (address_normalizer.py lines 53 to 115). -/
def parse_address (address : List Char) : ParsedAddress :=
  if address = [] then ⟨[], [], [], [], address⟩
  else
    let parts := words (cleanedAddr address)
    let np := splitNumber parts
    let tp := splitType np.2
    ⟨np.1, List.intercalate [' '] tp.2, tp.1, extractUnit address, address⟩

/-- The three-component concatenation `f"{num} {name} {type}"`: the first
component, a space, the second component, a space, the third component. -/
def renderAddr (num name canon : List Char) : List Char :=
  num ++ (' ' :: (name ++ (' ' :: canon)))

/-- Embedding of normalize_address (address_normalizer.py lines 242 to 271):
parse, uppercase name and type, canonicalize the type with the uppercased
literal as fallback, then `f"{num} {name} {type}".strip()`. -/
def normalize_address (address : List Char) : List Char :=
  if address = [] then []
  else
    let p := parse_address address
    let nameU := p.street_name.map upChar
    let typeU := p.street_type.map upChar
    let canon := (typeToCanonical typeU).getD typeU
    trim (renderAddr p.street_number nameU canon)

/-! ### Variation generators (address_normalizer.py lines 165 to 306) -/

/-- Embedding of get_street_name_variations: case variants of the name, plus
the variants of the opposite ordinal form when the uppercased name is in
NUMBERED_STREETS.  The Python set is modelled by deduplication; only
membership is observable. -/
def get_street_name_variations (street_name : List Char) : List (List Char) :=
  let nu := upperStr street_name
  let base := [nu, lowerStr street_name, titleStr street_name]
  let more :=
    match List.lookup nu NUMBERED_STREETS with
    | some alt => [alt, lowerStr alt, titleStr alt]
    | none => []
  (base ++ more).dedup

/-- Embedding of get_street_type_variations: all registered spellings of the
resolved canonical group in three casings, or case variants of the literal
when unresolved. -/
def get_street_type_variations (street_type : List Char) : List (List Char) :=
  let tU := upperStr street_type
  let canonical := (typeToCanonical tU).getD tU
  match List.lookup canonical STREET_TYPES with
  | some vars => (vars.flatMap fun v => [v, lowerStr v, titleStr v]).dedup
  | none => [tU, lowerStr street_type, titleStr street_type].dedup

/-- Embedding of generate_address_variations: the deduplicated product
`f"{number} {name} {type}"` over name and type variations. -/
def generate_address_variations
    (street_number street_name street_type : List Char) : List (List Char) :=
  let nv := get_street_name_variations street_name
  let tv := get_street_type_variations street_type
  (nv.flatMap fun n => tv.map fun st => street_number ++ ' ' :: n ++ ' ' :: st).dedup

/-! ### Geocoder (src/modules/geocoder.py) -/

/-- The word-to-numeral table of normalize_street_name (geocoder.py lines
29 to 34); unlike NUMBERED_STREETS it maps in one direction only. -/
def WORD_TO_NUM : List (List Char × List Char) :=
  [(lc "FIRST", lc "1ST"), (lc "SECOND", lc "2ND"), (lc "THIRD", lc "3RD"),
   (lc "FOURTH", lc "4TH"), (lc "FIFTH", lc "5TH"), (lc "SIXTH", lc "6TH"),
   (lc "SEVENTH", lc "7TH"), (lc "EIGHTH", lc "8TH"), (lc "NINTH", lc "9TH"),
   (lc "TENTH", lc "10TH"), (lc "ELEVENTH", lc "11TH"), (lc "TWELFTH", lc "12TH")]

/-- Embedding of normalize_street_name (geocoder.py lines 20 to 41):
uppercase and strip, then convert a word-form ordinal to its numeral form;
anything else is returned uppercased. -/
def normalize_street_name (name : List Char) : List Char :=
  let nu := trim (upperStr name)
  (List.lookup nu WORD_TO_NUM).getD nu

/-- Ordinal-suffix lowering of normalize_address_for_lookup (geocoder.py
lines 67 to 75): if the name matches `^\d+(ST|ND|RD|TH)$`, lowercase the
suffix. -/
def lowerOrdinal (n : List Char) : List Char :=
  let ds := n.takeWhile isDigitC
  let r := n.dropWhile isDigitC
  if ds ≠ [] ∧ (r = lc "ST" ∨ r = lc "ND" ∨ r = lc "RD" ∨ r = lc "TH") then
    ds ++ lowerStr r
  else n

/-- The lookup-specific street-type table of normalize_address_for_lookup
(geocoder.py lines 79 to 91). -/
def LOOKUP_TYPE_MAP : List (List Char × List Char) :=
  [(lc "ST", lc "St"), (lc "AV", lc "Av"), (lc "AVE", lc "Av"), (lc "AVENUE", lc "Av"),
   (lc "WY", lc "Wy"), (lc "WAY", lc "Wy"),
   (lc "BL", lc "Bl"), (lc "BLVD", lc "Bl"), (lc "BOULEVARD", lc "Bl"),
   (lc "RD", lc "Rd"), (lc "ROAD", lc "Rd"),
   (lc "DR", lc "Dr"), (lc "DRIVE", lc "Dr"),
   (lc "PL", lc "Pl"), (lc "PLACE", lc "Pl"),
   (lc "CT", lc "Ct"), (lc "COURT", lc "Ct"),
   (lc "LN", lc "Ln"), (lc "LANE", lc "Ln"),
   (lc "SQ", lc "Sq"), (lc "SQUARE", lc "Sq"),
   (lc "TE", lc "Te"), (lc "TER", lc "Te"), (lc "TERRACE", lc "Te"),
   (lc "CI", lc "Ci"), (lc "CIR", lc "Ci"), (lc "CIRCLE", lc "Ci")]

/-- Embedding of normalize_address_for_lookup (geocoder.py lines 44 to 99):
split on whitespace, fail when fewer than three tokens, take the first three
as number, name and type (extra tokens are ignored by the source), convert
the name, map the type through LOOKUP_TYPE_MAP with title-cased literal as
fallback, and rebuild `f"{num} {name} {type}"`. -/
def normalize_address_for_lookup (address : List Char) : Option (List Char) :=
  match words (trim address) with
  | p0 :: p1 :: p2 :: _ =>
    let nn := lowerOrdinal (normalize_street_name p1)
    let tU := upperStr p2
    let nt := (List.lookup tU LOOKUP_TYPE_MAP).getD (titleStr p2)
    some (p0 ++ ' ' :: nn ++ ' ' :: nt)
  | _ => none

/-- Row of the external lookup table (columns original_address, latitude,
longitude, APN; a missing APN is modelled as `none`). -/
structure LookupRow where
  original_address : List Char
  latitude : ℚ
  longitude : ℚ
  apn : Option (List Char)
deriving DecidableEq, Repr

/-- Result dictionary of geocode_from_lookup (geocoder.py lines 129 to 135). -/
structure GeocodeResult where
  latitude : ℚ
  longitude : ℚ
  apn : Option (List Char)
  original_address : List Char
  normalized_input : List Char
deriving DecidableEq, Repr

/-- Embedding of geocode_from_lookup (geocoder.py lines 111 to 137): exact
equality lookup of the normalized input against original_address, first
matching row wins. -/
def geocode_from_lookup (address : List Char) (table : List LookupRow) :
    Option GeocodeResult :=
  match normalize_address_for_lookup address with
  | none => none
  | some q =>
    match table.find? (fun r => r.original_address == q) with
    | some r => some ⟨r.latitude, r.longitude, r.apn, r.original_address, q⟩
    | none => none

/-- The BERKELEY_BOUNDS constant (geocoder.py lines 12 to 17); the decimal
literals are modelled as exact rationals. -/
structure Bounds where
  lat_min : ℚ
  lat_max : ℚ
  lon_min : ℚ
  lon_max : ℚ

def BERKELEY_BOUNDS : Bounds := ⟨37.84, 37.91, -122.32, -122.23⟩

/-- Embedding of validate_coordinates (geocoder.py lines 167 to 172); any
city other than Berkeley returns False. -/
def validate_coordinates (latitude longitude : ℚ) (city : List Char) : Bool :=
  if city = lc "Berkeley" then
    decide (BERKELEY_BOUNDS.lat_min ≤ latitude ∧ latitude ≤ BERKELEY_BOUNDS.lat_max ∧
      BERKELEY_BOUNDS.lon_min ≤ longitude ∧ longitude ≤ BERKELEY_BOUNDS.lon_max)
  else false

/-- Embedding of validate_berkeley_coords (geocoder.py lines 220 to 221). -/
def validate_berkeley_coords (latitude longitude : ℚ) : Bool :=
  validate_coordinates latitude longitude (lc "Berkeley")

/-- Embedding of add_manual_geocode (geocoder.py lines 175 to 198) with the
CSV file modelled as an explicit row list threaded through the call: on
rejected coordinates the function returns False before touching the table;
otherwise it appends one row whose address is the normalized form (falling
back to the raw address when normalization fails) and returns True. -/
def add_manual_geocode (address : List Char) (latitude longitude : ℚ)
    (apn : Option (List Char)) (table : List LookupRow) : Bool × List LookupRow :=
  if validate_coordinates latitude longitude (lc "Berkeley") then
    let normalized := (normalize_address_for_lookup address).getD address
    (true, table ++ [⟨normalized, latitude, longitude, apn⟩])
  else (false, table)

/-- Test for two consecutive space characters, used to state the
whitespace-collapsing property of the canonical normalizer. -/
def hasDoubleSpace : List Char → Bool
  | a :: b :: t => (a = ' ' && b = ' ') || hasDoubleSpace (b :: t)
  | _ => false

/-! ## Supporting lemmas -/

theorem toNat_ofNat_valid {n : Nat} (h : n.isValidChar) : (Char.ofNat n).toNat = n := by
  unfold Char.ofNat
  rw [dif_pos h]
  simp [Char.ofNatAux, Char.toNat, UInt32.toNat]

theorem toNat_upChar (c : Char) :
    (upChar c).toNat = if 97 ≤ c.toNat ∧ c.toNat ≤ 122 then c.toNat - 32 else c.toNat := by
  unfold upChar
  split
  case isTrue h => exact toNat_ofNat_valid (Or.inl (by omega))
  case isFalse h => rfl

theorem upChar_eq_self {c : Char} (h : ¬ (97 ≤ c.toNat ∧ c.toNat ≤ 122)) : upChar c = c := by
  unfold upChar
  rw [if_neg h]

theorem upChar_idem (c : Char) : upChar (upChar c) = upChar c := by
  apply upChar_eq_self
  rw [toNat_upChar]
  by_cases hc : 97 ≤ c.toNat ∧ c.toNat ≤ 122
  · rw [if_pos hc]; omega
  · rw [if_neg hc]; exact hc

theorem isWs_upChar (c : Char) : isWs (upChar c) = isWs c := by
  unfold isWs
  rw [decide_eq_decide, toNat_upChar]
  by_cases hc : 97 ≤ c.toNat ∧ c.toNat ≤ 122
  · rw [if_pos hc]; omega
  · rw [if_neg hc]

theorem isDigitC_upChar (c : Char) : isDigitC (upChar c) = isDigitC c := by
  unfold isDigitC
  rw [decide_eq_decide, toNat_upChar]
  by_cases hc : 97 ≤ c.toNat ∧ c.toNat ≤ 122
  · rw [if_pos hc]; omega
  · rw [if_neg hc]

theorem isAlphaC_upChar (c : Char) : isAlphaC (upChar c) = isAlphaC c := by
  unfold isAlphaC
  rw [← Bool.decide_or, ← Bool.decide_or, decide_eq_decide, toNat_upChar]
  by_cases hc : 97 ≤ c.toNat ∧ c.toNat ≤ 122
  · rw [if_pos hc]; omega
  · rw [if_neg hc]

theorem nws_upChar (c : Char) : nws (upChar c) = nws c := by
  unfold nws
  rw [isWs_upChar]


theorem wordsF_nil (n : Nat) : wordsF n [] = [] := by
  cases n <;> rfl

theorem wordsF_congr :
    ∀ n m : Nat, ∀ cs : List Char, cs.length ≤ n → cs.length ≤ m →
      wordsF n cs = wordsF m cs := by
  intro n
  induction n with
  | zero =>
    intro m cs hn _
    have : cs = [] := List.eq_nil_of_length_eq_zero (Nat.le_zero.mp hn)
    subst this
    rw [wordsF_nil, wordsF_nil]
  | succ n ih =>
    intro m cs hn hm
    cases cs with
    | nil => rw [wordsF_nil, wordsF_nil]
    | cons c rest =>
      cases m with
      | zero => simp at hm
      | succ m =>
        simp only [List.length_cons, Nat.add_le_add_iff_right] at hn hm
        show (if isWs c then wordsF n rest
            else (c :: rest.takeWhile nws) :: wordsF n (rest.dropWhile nws)) =
          (if isWs c then wordsF m rest
            else (c :: rest.takeWhile nws) :: wordsF m (rest.dropWhile nws))
        by_cases hc : isWs c
        · rw [if_pos hc, if_pos hc, ih m rest hn hm]
        · rw [if_neg hc, if_neg hc,
            ih m (rest.dropWhile nws)
              (le_trans (List.dropWhile_sublist nws (l := rest)).length_le hn)
              (le_trans (List.dropWhile_sublist nws (l := rest)).length_le hm)]

theorem words_nil : words [] = [] := rfl

theorem words_cons (c : Char) (rest : List Char) :
    words (c :: rest) =
      if isWs c then words rest
      else (c :: rest.takeWhile nws) :: words (rest.dropWhile nws) := by
  show (if isWs c then wordsF rest.length rest
      else (c :: rest.takeWhile nws) :: wordsF rest.length (rest.dropWhile nws)) = _
  unfold words
  by_cases hc : isWs c
  · rw [if_pos hc, if_pos hc]
  · rw [if_neg hc, if_neg hc,
      wordsF_congr rest.length (rest.dropWhile nws).length (rest.dropWhile nws)
        (List.dropWhile_sublist nws (l := rest)).length_le le_rfl]

theorem words_all_ws (cs : List Char) (h : ∀ c ∈ cs, isWs c = true) : words cs = [] := by
  induction cs with
  | nil => exact words_nil
  | cons a l ih =>
    rw [words_cons, if_pos (h a (by simp))]
    exact ih fun c hc => h c (by simp [hc])

theorem takeWhile_nws_append {w : List Char} (hw : ∀ c, w.head? = some c → isWs c = true)
    (v : List Char) : (v ++ w).takeWhile nws = v.takeWhile nws := by
  induction v with
  | nil =>
    cases w with
    | nil => rfl
    | cons a l =>
      have ha : isWs a = true := hw a rfl
      simp [List.takeWhile_cons, nws, ha]
  | cons a v ih =>
    by_cases ha : nws a
    · simp [List.takeWhile_cons, ha, ih]
    · simp [List.takeWhile_cons, ha]

theorem dropWhile_nws_append {w : List Char} (hw : ∀ c, w.head? = some c → isWs c = true)
    (v : List Char) : (v ++ w).dropWhile nws = v.dropWhile nws ++ w := by
  induction v with
  | nil =>
    cases w with
    | nil => rfl
    | cons a l =>
      have ha : isWs a = true := hw a rfl
      simp [List.dropWhile_cons, nws, ha]
  | cons a v ih =>
    by_cases ha : nws a
    · simp [List.dropWhile_cons, ha, ih]
    · simp [List.dropWhile_cons, ha]

theorem words_append_ws_cons_aux {c : Char} (hc : isWs c = true) (u : List Char) :
    ∀ n, ∀ v : List Char, v.length ≤ n → words (v ++ c :: u) = words v ++ words u := by
  intro n
  induction n with
  | zero =>
    intro v hv
    have hveq : v = [] := List.eq_nil_of_length_eq_zero (Nat.le_zero.mp hv)
    subst hveq
    rw [List.nil_append, words_cons, if_pos hc, words_nil, List.nil_append]
  | succ n ih =>
    intro v hv
    cases v with
    | nil => rw [List.nil_append, words_cons, if_pos hc, words_nil, List.nil_append]
    | cons a v =>
      have hw : ∀ d, (c :: u).head? = some d → isWs d = true := by
        intro d hd
        simp only [List.head?_cons, Option.some.injEq] at hd
        rw [← hd]; exact hc
      rw [List.cons_append, words_cons, words_cons]
      by_cases ha : isWs a
      · rw [if_pos ha, if_pos ha]
        exact ih v (by simp at hv; omega)
      · rw [if_neg ha, if_neg ha, takeWhile_nws_append hw, dropWhile_nws_append hw]
        rw [ih (v.dropWhile nws)
          (le_trans (List.dropWhile_sublist nws (l := v)).length_le (by simp at hv; omega))]
        rw [List.cons_append]

theorem words_append_ws_cons {c : Char} (hc : isWs c = true) (u v : List Char) :
    words (v ++ c :: u) = words v ++ words u :=
  words_append_ws_cons_aux hc u v.length v le_rfl

theorem words_append_all_ws {w : List Char} (hw : ∀ c ∈ w, isWs c = true)
    (v : List Char) : words (v ++ w) = words v := by
  cases w with
  | nil => rw [List.append_nil]
  | cons a l =>
    rw [words_append_ws_cons (hw a (by simp)) l v,
      words_all_ws l (fun c hc => hw c (by simp [hc])), List.append_nil]

theorem words_token {t : List Char} (hne : t ≠ []) (hc : ∀ c ∈ t, isWs c = false) :
    words t = [t] := by
  cases t with
  | nil => exact absurd rfl hne
  | cons a r =>
    rw [words_cons, if_neg (by simp [hc a (by simp)])]
    rw [List.takeWhile_eq_self_iff.mpr fun x hx => by simp [nws, hc x (by simp [hx])]]
    rw [List.dropWhile_eq_nil_iff.mpr fun x hx => by simp [nws, hc x (by simp [hx])]]
    rw [words_nil]

theorem words_sound_aux :
    ∀ n, ∀ cs : List Char, cs.length ≤ n →
      ∀ t ∈ words cs, t ≠ [] ∧ ∀ c ∈ t, isWs c = false := by
  intro n
  induction n with
  | zero =>
    intro cs hcs
    have : cs = [] := List.eq_nil_of_length_eq_zero (Nat.le_zero.mp hcs)
    subst this
    intro t ht
    rw [words_nil] at ht
    exact absurd ht (List.not_mem_nil t)
  | succ n ih =>
    intro cs hcs t ht
    cases cs with
    | nil =>
      rw [words_nil] at ht
      exact absurd ht (List.not_mem_nil t)
    | cons a l =>
      rw [words_cons] at ht
      by_cases ha : isWs a
      · rw [if_pos ha] at ht
        exact ih l (by simp at hcs; omega) t ht
      · rw [if_neg ha] at ht
        rcases List.mem_cons.mp ht with h | h
        · subst h
          refine ⟨by simp, ?_⟩
          intro c hcmem
          rcases List.mem_cons.mp hcmem with h | h
          · subst h; simpa using ha
          · have := List.mem_takeWhile_imp h
            simpa [nws] using this
        · exact ih (l.dropWhile nws)
            (le_trans (List.dropWhile_sublist nws (l := l)).length_le (by simp at hcs; omega))
            t h

theorem mem_words {cs t : List Char} (ht : t ∈ words cs) :
    t ≠ [] ∧ ∀ c ∈ t, isWs c = false :=
  words_sound_aux cs.length cs le_rfl t ht

theorem words_trimLeft (cs : List Char) : words (cs.dropWhile isWs) = words cs := by
  induction cs with
  | nil => rfl
  | cons a l ih =>
    by_cases ha : isWs a
    · rw [List.dropWhile_cons_of_pos ha, words_cons, if_pos ha, ih]
    · rw [List.dropWhile_cons_of_neg ha]

theorem trimRight_decomp (v : List Char) :
    v = trimRight v ++ (v.reverse.takeWhile isWs).reverse := by
  conv_lhs => rw [← List.reverse_reverse v, ← List.takeWhile_append_dropWhile isWs v.reverse]
  rw [List.reverse_append]
  rfl

theorem words_trimRight (v : List Char) : words (trimRight v) = words v := by
  conv_rhs => rw [trimRight_decomp v]
  rw [words_append_all_ws]
  intro c hc
  rw [List.mem_reverse] at hc
  exact List.mem_takeWhile_imp hc

theorem words_trim (cs : List Char) : words (trim cs) = words cs := by
  unfold trim trimLeft
  rw [words_trimRight, words_trimLeft]

theorem trim_eq_nil_of_all_ws {s : List Char} (h : ∀ c ∈ s, isWs c = true) : trim s = [] := by
  unfold trim trimLeft trimRight
  rw [List.dropWhile_eq_nil_iff.mpr h]
  rfl

theorem intercalate_nil_toks (s : List Char) :
    List.intercalate s ([] : List (List Char)) = [] := by
  simp [List.intercalate]

theorem intercalate_single (s t : List Char) : List.intercalate s [t] = t := by
  simp [List.intercalate]

theorem intercalate_cons_cons (s t t2 : List Char) (ts : List (List Char)) :
    List.intercalate s (t :: t2 :: ts) = t ++ s ++ List.intercalate s (t2 :: ts) := by
  simp [List.intercalate, List.intersperse]

theorem words_intercalate {ts : List (List Char)}
    (h : ∀ t ∈ ts, t ≠ [] ∧ ∀ c ∈ t, isWs c = false) :
    words (List.intercalate [' '] ts) = ts := by
  induction ts with
  | nil => rw [intercalate_nil_toks, words_nil]
  | cons t ts ih =>
    cases ts with
    | nil => rw [intercalate_single]; exact words_token (h t (by simp)).1 (h t (by simp)).2
    | cons t2 ts2 =>
      rw [intercalate_cons_cons, List.append_assoc, List.singleton_append,
        words_append_ws_cons (by decide), words_token (h t (by simp)).1 (h t (by simp)).2,
        ih fun x hx => h x (by simp [hx])]
      rfl

theorem upChar_space : upChar ' ' = ' ' := by decide

theorem map_upChar_intercalate (ts : List (List Char)) :
    (List.intercalate [' '] ts).map upChar =
      List.intercalate [' '] (ts.map (List.map upChar)) := by
  induction ts with
  | nil => rw [intercalate_nil_toks]; rfl
  | cons t ts ih =>
    cases ts with
    | nil => simp only [List.map_cons, List.map_nil, intercalate_single]
    | cons t2 ts2 =>
      simp only [List.map_cons] at ih ⊢
      rw [intercalate_cons_cons, intercalate_cons_cons, List.map_append, List.map_append, ih]
      simp [upChar_space]


theorem ws_space : isWs ' ' = true := by decide

theorem ne_space_of_not_ws {c : Char} (h : isWs c = false) : c ≠ ' ' := by
  intro he
  rw [he, ws_space] at h
  exact Bool.noConfusion h

theorem trimLeft_eq_self {s : List Char} (h : ∀ c, s.head? = some c → isWs c = false) :
    trimLeft s = s := by
  cases s with
  | nil => rfl
  | cons a t =>
    exact List.dropWhile_cons_of_neg (by rw [h a rfl]; exact Bool.false_ne_true)

theorem trimRight_eq_self {s : List Char} (h : ∀ c, s.getLast? = some c → isWs c = false) :
    trimRight s = s := by
  unfold trimRight
  have : s.reverse.dropWhile isWs = s.reverse := by
    apply trimLeft_eq_self
    intro c hc
    rw [List.head?_reverse] at hc
    exact h c hc
  rw [this, List.reverse_reverse]

theorem trim_eq_self {s : List Char} (hh : ∀ c, s.head? = some c → isWs c = false)
    (hl : ∀ c, s.getLast? = some c → isWs c = false) : trim s = s := by
  unfold trim
  rw [show trimLeft s = s from trimLeft_eq_self hh, trimRight_eq_self hl]

theorem getLast?_append_right {l m : List Char} (h : m ≠ []) :
    (l ++ m).getLast? = m.getLast? := by
  rw [List.getLast?_append]
  cases hm : m.getLast? with
  | none => exact absurd (List.getLast?_eq_none_iff.mp hm) h
  | some c => rfl

theorem getLast?_cons_ne_nil {a : Char} {m : List Char} (h : m ≠ []) :
    (a :: m).getLast? = m.getLast? := by
  cases m with
  | nil => exact absurd rfl h
  | cons b t => exact List.getLast?_cons_cons

/-! ### Double-space lemmas for the canonical normalizer format -/

theorem hasDoubleSpace_cons_cons (a b : Char) (t : List Char) :
    hasDoubleSpace (a :: b :: t) = ((a = ' ' && b = ' ') || hasDoubleSpace (b :: t)) := rfl

theorem dd_of_all_not_ws {u : List Char} (h : ∀ c ∈ u, isWs c = false) :
    hasDoubleSpace u = false := by
  induction u with
  | nil => rfl
  | cons a t ih =>
    cases t with
    | nil => rfl
    | cons b t2 =>
      rw [hasDoubleSpace_cons_cons]
      have ha : a ≠ ' ' := ne_space_of_not_ws (h a (by simp))
      simp only [decide_eq_true_eq, ha, decide_False, Bool.false_and, Bool.false_or]
      exact ih fun c hc => h c (by simp [List.mem_cons] at hc ⊢; tauto)

theorem dd_sep_head {v : List Char} (h3 : hasDoubleSpace v = false)
    (h4 : ∀ c, v.head? = some c → c ≠ ' ') : hasDoubleSpace (' ' :: v) = false := by
  cases v with
  | nil => rfl
  | cons d v2 =>
    rw [hasDoubleSpace_cons_cons]
    have hd : d ≠ ' ' := h4 d rfl
    simp only [hd, decide_False, Bool.and_false, Bool.false_or]
    exact h3

theorem dd_sep :
    ∀ u : List Char, ∀ v : List Char, hasDoubleSpace u = false →
      (∀ c, u.getLast? = some c → c ≠ ' ') →
      hasDoubleSpace v = false → (∀ c, v.head? = some c → c ≠ ' ') →
      hasDoubleSpace (u ++ ' ' :: v) = false := by
  intro u
  induction u with
  | nil => intro v _ _ h3 h4; exact dd_sep_head h3 h4
  | cons a t ih =>
    intro v h1 h2 h3 h4
    cases t with
    | nil =>
      rw [List.cons_append, List.nil_append, hasDoubleSpace_cons_cons]
      have ha : a ≠ ' ' := h2 a rfl
      simp only [ha, decide_False, Bool.false_and, Bool.false_or]
      exact dd_sep_head h3 h4
    | cons b t2 =>
      rw [List.cons_append, List.cons_append, hasDoubleSpace_cons_cons]
      rw [hasDoubleSpace_cons_cons] at h1
      rcases Bool.or_eq_false_iff.mp h1 with ⟨hab, hrest⟩
      simp only [hab, Bool.false_or]
      have h2' : ∀ c, (b :: t2).getLast? = some c → c ≠ ' ' := by
        intro c hc
        exact h2 c (by rw [List.getLast?_cons_cons]; exact hc)
      exact ih v hrest h2' h3 h4

theorem intercalate_ne_nil {ts : List (List Char)} (hts : ts ≠ [])
    (h : ∀ t ∈ ts, t ≠ []) : List.intercalate [' '] ts ≠ [] := by
  cases ts with
  | nil => exact absurd rfl hts
  | cons t ts2 =>
    cases ts2 with
    | nil => rw [intercalate_single]; exact h t (by simp)
    | cons t2 ts3 =>
      rw [intercalate_cons_cons]
      exact List.append_ne_nil_of_left_ne_nil
        (List.append_ne_nil_of_left_ne_nil (h t (by simp)) _) _

theorem head_intercalate_not_ws {ts : List (List Char)}
    (h : ∀ t ∈ ts, t ≠ [] ∧ ∀ c ∈ t, isWs c = false) :
    ∀ c, (List.intercalate [' '] ts).head? = some c → isWs c = false := by
  induction ts with
  | nil => intro c hc; rw [intercalate_nil_toks] at hc; exact Option.noConfusion hc
  | cons t ts2 ih =>
    intro c hc
    cases ts2 with
    | nil =>
      rw [intercalate_single] at hc
      exact (h t (by simp)).2 c (List.mem_of_mem_head? (by rw [hc]; simp))
    | cons t2 ts3 =>
      rw [intercalate_cons_cons, List.append_assoc, List.singleton_append,
        List.head?_append] at hc
      obtain ⟨a, t', ht⟩ : ∃ a t', t = a :: t' := by
        cases ht : t with
        | nil => exact absurd ht (h t (by simp)).1
        | cons a t' => exact ⟨a, t', rfl⟩
      rw [ht] at hc
      simp only [List.head?_cons, Option.or_some, Option.some.injEq] at hc
      exact (h t (by simp)).2 c (by rw [ht, ← hc]; simp)

theorem getLast_intercalate_not_ws {ts : List (List Char)}
    (h : ∀ t ∈ ts, t ≠ [] ∧ ∀ c ∈ t, isWs c = false) :
    ∀ c, (List.intercalate [' '] ts).getLast? = some c → isWs c = false := by
  induction ts with
  | nil => intro c hc; rw [intercalate_nil_toks] at hc; exact Option.noConfusion hc
  | cons t ts2 ih =>
    intro c hc
    cases ts2 with
    | nil =>
      rw [intercalate_single] at hc
      exact (h t (by simp)).2 c (List.mem_of_mem_getLast? hc)
    | cons t2 ts3 =>
      rw [intercalate_cons_cons, List.append_assoc, List.singleton_append] at hc
      have hne : List.intercalate [' '] (t2 :: ts3) ≠ [] :=
        intercalate_ne_nil (by simp) fun t' ht' => (h t' (by simp [ht'])).1
      rw [getLast?_append_right (by simp), getLast?_cons_ne_nil hne] at hc
      exact ih (fun t' ht' => h t' (by simp [List.mem_cons] at ht' ⊢; tauto)) c hc

theorem dd_intercalate {ts : List (List Char)}
    (h : ∀ t ∈ ts, t ≠ [] ∧ ∀ c ∈ t, isWs c = false) :
    hasDoubleSpace (List.intercalate [' '] ts) = false := by
  induction ts with
  | nil => rfl
  | cons t ts2 ih =>
    cases ts2 with
    | nil => rw [intercalate_single]; exact dd_of_all_not_ws (h t (by simp)).2
    | cons t2 ts3 =>
      rw [intercalate_cons_cons, List.append_assoc, List.singleton_append]
      have hsub : ∀ t' ∈ t2 :: ts3, t' ≠ [] ∧ ∀ c ∈ t', isWs c = false := by
        intro t' ht'
        exact h t' (by simp [List.mem_cons] at ht' ⊢; tauto)
      apply dd_sep
      · exact dd_of_all_not_ws (h t (by simp)).2
      · intro c hc
        exact ne_space_of_not_ws ((h t (by simp)).2 c (List.mem_of_mem_getLast? hc))
      · exact ih hsub
      · intro c hc
        exact ne_space_of_not_ws (head_intercalate_not_ws hsub c hc)

/-! ### Parse-component lemmas -/

theorem lookup_mem_snd {k v : List Char} :
    ∀ {ps : List (List Char × List Char)}, List.lookup k ps = some v → v ∈ ps.map Prod.snd := by
  intro ps
  induction ps with
  | nil => intro h; exact Option.noConfusion h
  | cons a ps ih =>
    intro h
    cases a with
    | mk k1 v1 =>
      rw [List.lookup_cons] at h
      by_cases hk : (k == k1) = true
      · rw [hk] at h
        simp only [Option.some.injEq] at h
        simp [← h]
      · rw [Bool.not_eq_true] at hk
        rw [hk] at h
        simp [ih h]

/-- Properties of every canonical value of the reverse street-type index:
nonempty, whitespace-free, uppercase-stable, a fixed point of the lookup, and
not number-shaped. -/
theorem canon_props :
    ∀ v ∈ TYPE_TO_CANONICAL.map Prod.snd,
      v ≠ [] ∧ (∀ c ∈ v, isWs c = false) ∧ v.map upChar = v ∧
        typeToCanonical v = some v ∧ isNumTok v = false := by
  decide

theorem parse_address_eq {x : List Char} (hx : x ≠ []) :
    parse_address x =
      ⟨(splitNumber (words (cleanedAddr x))).1,
        List.intercalate [' '] (splitType (splitNumber (words (cleanedAddr x))).2).2,
        (splitType (splitNumber (words (cleanedAddr x))).2).1,
        extractUnit x, x⟩ := by
  unfold parse_address
  rw [if_neg hx]

theorem normalize_address_eq {x : List Char} (hx : x ≠ []) :
    normalize_address x =
      trim (renderAddr (parse_address x).street_number
        ((parse_address x).street_name.map upChar)
        ((typeToCanonical ((parse_address x).street_type.map upChar)).getD
          ((parse_address x).street_type.map upChar))) := by
  unfold normalize_address
  rw [if_neg hx]

theorem splitNumber_cases (parts : List (List Char)) :
    ((splitNumber parts).1 = [] ∧ (splitNumber parts).2 = parts) ∨
    ((splitNumber parts).1 ∈ parts ∧ isNumTok (splitNumber parts).1 = true ∧
      parts = (splitNumber parts).1 :: (splitNumber parts).2) := by
  cases parts with
  | nil => exact Or.inl ⟨rfl, rfl⟩
  | cons p0 rest =>
    by_cases h : isNumTok p0
    · right; simp [splitNumber, h]
    · left; simp [splitNumber, h]

theorem splitNumber_snd_mem {parts : List (List Char)} {t : List Char}
    (h : t ∈ (splitNumber parts).2) : t ∈ parts := by
  cases parts with
  | nil => exact h
  | cons p0 rest =>
    by_cases hn : isNumTok p0
    · simp only [splitNumber, hn, if_pos] at h
      simp [h]
    · simpa [splitNumber, hn] using h

theorem splitType_cases (parts : List (List Char)) :
    ((splitType parts).1 = [] ∧ (splitType parts).2 = parts) ∨
    ((splitType parts).1 ∈ parts ∧
      (typeToCanonical ((splitType parts).1.map upChar)).isSome = true ∧
      (splitType parts).2 = parts.dropLast) := by
  unfold splitType
  cases hl : parts.getLast? with
  | none => exact Or.inl ⟨rfl, rfl⟩
  | some lt =>
    dsimp only
    by_cases h : (typeToCanonical (lt.map upChar)).isSome
    · rw [if_pos h]
      exact Or.inr ⟨List.mem_of_mem_getLast? hl, h, rfl⟩
    · rw [if_neg h]
      exact Or.inl ⟨rfl, rfl⟩

theorem splitType_snd_mem {parts : List (List Char)} {t : List Char}
    (h : t ∈ (splitType parts).2) : t ∈ parts := by
  unfold splitType at h
  cases hl : parts.getLast? with
  | none => rw [hl] at h; exact h
  | some lt =>
    rw [hl] at h
    dsimp only at h
    by_cases hc : (typeToCanonical (lt.map upChar)).isSome
    · rw [if_pos hc] at h
      exact (List.dropLast_sublist parts).subset h
    · rw [if_neg hc] at h
      exact h

/-! ### Lemmas for idempotence of the canonical normalizer -/

theorem map_upChar_idem (t : List Char) : (t.map upChar).map upChar = t.map upChar := by
  rw [List.map_map]
  exact List.map_congr_left fun c _ => upChar_idem c

theorem mapped_parts_idem (ts : List (List Char)) :
    (ts.map (List.map upChar)).map (List.map upChar) = ts.map (List.map upChar) := by
  rw [List.map_map]
  exact List.map_congr_left fun t _ => map_upChar_idem t

theorem isNumTok_map_upChar (t : List Char) : isNumTok (t.map upChar) = isNumTok t := by
  have hdig : (isDigitC ∘ upChar) = isDigitC := funext isDigitC_upChar
  have halp : (isAlphaC ∘ upChar) = isAlphaC := funext isAlphaC_upChar
  have hie : ∀ l : List Char, (l.map upChar).isEmpty = l.isEmpty := by
    intro l
    cases l <;> rfl
  unfold isNumTok
  simp only [List.takeWhile_map, List.dropWhile_map, hdig, halp, List.all_map,
    List.length_map, hie]

theorem isNumTok_nil : isNumTok [] = false := by decide

theorem typeToCanonical_nil : typeToCanonical [] = none := by decide

theorem splitNumber_none {parts : List (List Char)} {p0 : List Char} {rest : List (List Char)}
    (hfst : (splitNumber parts).1 = []) (hp : parts = p0 :: rest) : isNumTok p0 = false := by
  subst hp
  by_cases h : isNumTok p0
  · rw [show splitNumber (p0 :: rest) = (p0, rest) from by simp [splitNumber, h]] at hfst
    have hp0 : p0 = [] := hfst
    rw [hp0, isNumTok_nil] at h
    exact Bool.noConfusion h
  · exact Bool.not_eq_true _ ▸ h

theorem splitType_none (parts : List (List Char)) (lt : List Char)
    (hfst : (splitType parts).1 = []) (hne : lt ≠ [])
    (hl : parts.getLast? = some lt) :
    (typeToCanonical (lt.map upChar)).isSome = false := by
  unfold splitType at hfst
  rw [hl] at hfst
  dsimp only at hfst
  by_cases h : (typeToCanonical (lt.map upChar)).isSome
  · rw [if_pos h] at hfst
    exact absurd hfst hne
  · exact Bool.not_eq_true _ ▸ h

theorem head?_dropLast_ne_nil {α : Type} {l : List α} (h : l.dropLast ≠ []) :
    l.dropLast.head? = l.head? := by
  cases l with
  | nil => simp at h
  | cons a t =>
    cases t with
    | nil => simp at h
    | cons b t2 => simp [List.dropLast]

/-- Shape of the normalizer render when all three components are nonempty:
the outer strip removes nothing and no two spaces are adjacent. -/
theorem render_format {num canon : List Char} {nameParts : List (List Char)}
    (hnum : num ≠ []) (hnumws : ∀ c ∈ num, isWs c = false)
    (hnp : nameParts ≠ [])
    (hparts : ∀ t ∈ nameParts, t ≠ [] ∧ ∀ c ∈ t, isWs c = false)
    (hcanon : canon ≠ []) (hcanonws : ∀ c ∈ canon, isWs c = false) :
    trim (renderAddr num ((List.intercalate [' '] nameParts).map upChar) canon) =
      renderAddr num ((List.intercalate [' '] nameParts).map upChar) canon ∧
    hasDoubleSpace
      (renderAddr num ((List.intercalate [' '] nameParts).map upChar) canon) = false := by
  unfold renderAddr
  rw [map_upChar_intercalate]
  have hparts' : ∀ t ∈ nameParts.map (List.map upChar), t ≠ [] ∧ ∀ c ∈ t, isWs c = false := by
    intro t ht
    rcases List.mem_map.mp ht with ⟨t0, ht0, rfl⟩
    refine ⟨by simpa using (hparts t0 ht0).1, ?_⟩
    intro c hc
    rcases List.mem_map.mp hc with ⟨c0, hc0, rfl⟩
    rw [isWs_upChar]
    exact (hparts t0 ht0).2 c0 hc0
  have hnpm : nameParts.map (List.map upChar) ≠ [] := by simpa using hnp
  set nameU := List.intercalate [' '] (nameParts.map (List.map upChar)) with hnameU
  have hnameU_ne : nameU ≠ [] :=
    intercalate_ne_nil hnpm fun t ht => (hparts' t ht).1
  have hrest_ne : nameU ++ ' ' :: canon ≠ [] := by
    intro h
    exact hnameU_ne (List.append_eq_nil.mp h).1
  have hheadU : ∀ c, nameU.head? = some c → isWs c = false :=
    head_intercalate_not_ws hparts'
  have hlastU : ∀ c, nameU.getLast? = some c → isWs c = false :=
    getLast_intercalate_not_ws hparts'
  obtain ⟨b, nU, hbU⟩ : ∃ b t, nameU = b :: t := by
    cases hU : nameU with
    | nil => exact absurd hU hnameU_ne
    | cons b t => exact ⟨b, t, rfl⟩
  have hheadV : ∀ c, (nameU ++ ' ' :: canon).head? = some c → c ≠ ' ' := by
    intro c hc
    rw [hbU] at hc
    simp only [List.cons_append, List.head?_cons, Option.some.injEq] at hc
    apply ne_space_of_not_ws
    apply hheadU c
    rw [hbU, ← hc]
    rfl
  have hddV : hasDoubleSpace (nameU ++ ' ' :: canon) = false := by
    apply dd_sep
    · exact dd_intercalate hparts'
    · intro c hc
      exact ne_space_of_not_ws (hlastU c hc)
    · exact dd_of_all_not_ws hcanonws
    · intro c hc
      exact ne_space_of_not_ws (hcanonws c (List.mem_of_mem_head? (by rw [hc]; simp)))
  have hlastV : (num ++ (' ' :: (nameU ++ (' ' :: canon)))).getLast? = canon.getLast? := by
    rw [getLast?_append_right (l := num) (m := ' ' :: (nameU ++ (' ' :: canon))) (by simp),
      getLast?_cons_ne_nil hrest_ne,
      getLast?_append_right (l := nameU) (m := ' ' :: canon) (by simp),
      getLast?_cons_ne_nil hcanon]
  obtain ⟨a, numT, rfl⟩ : ∃ a t, num = a :: t := by
    cases num with
    | nil => exact absurd rfl hnum
    | cons a t => exact ⟨a, t, rfl⟩
  constructor
  · apply trim_eq_self
    · intro c hc
      simp only [List.cons_append, List.head?_cons, Option.some.injEq] at hc
      rw [← hc]
      exact hnumws a (by simp)
    · intro c hc
      rw [hlastV] at hc
      exact hcanonws c (List.mem_of_mem_getLast? hc)
  · exact dd_sep (a :: numT) (nameU ++ ' ' :: canon)
      (dd_of_all_not_ws hnumws)
      (fun c hc => ne_space_of_not_ws (hnumws c (List.mem_of_mem_getLast? hc)))
      hddV hheadV

/-- Re-normalizing a rendered address: when the number slot is empty or a
number token, the name words are uppercase-stable tokens whose head is not
number-shaped and whose last word does not resolve as a street type (when no
type is present), and the type slot is empty or a canonical type, the second
parse splits the render back into the same three components, so the second
normalization renders the same string. -/
theorem second_pass (num ct : List Char) (mp : List (List Char))
    (hnum : num = [] ∨ (isNumTok num = true ∧ num ≠ [] ∧ ∀ c ∈ num, isWs c = false))
    (hhead : num = [] → ∀ m0, mp.head? = some m0 → isNumTok m0 = false)
    (hmp_idem : mp.map (List.map upChar) = mp)
    (hmp_last : ct = [] → ∀ lt, mp.getLast? = some lt →
      (typeToCanonical (lt.map upChar)).isSome = false)
    (hct : ct = [] ∨ (ct ≠ [] ∧ (∀ c ∈ ct, isWs c = false) ∧ ct.map upChar = ct ∧
      typeToCanonical ct = some ct ∧ isNumTok ct = false)) :
    trim (renderAddr (splitNumber (words num ++ (mp ++ words ct))).1
        ((List.intercalate [' ']
          (splitType (splitNumber (words num ++ (mp ++ words ct))).2).2).map upChar)
        ((typeToCanonical
            ((splitType (splitNumber (words num ++ (mp ++ words ct))).2).1.map upChar)).getD
          ((splitType (splitNumber (words num ++ (mp ++ words ct))).2).1.map upChar))) =
      trim (renderAddr num (List.intercalate [' '] mp) ct) := by
  rcases hnum with hnum0 | ⟨hnt, hnum_ne, hnumws⟩
  · subst hnum0
    rw [words_nil, List.nil_append]
    rcases hct with hct0 | ⟨hct_ne, hctws, hctup, hctlook, hctnum⟩
    · subst hct0
      rw [words_nil, List.append_nil]
      cases hmp : mp with
      | nil => decide
      | cons m0 mrest =>
        have hm0 : isNumTok m0 = false := hhead rfl m0 (by rw [hmp]; rfl)
        have hsn : splitNumber (m0 :: mrest) = ([], m0 :: mrest) := by
          simp [splitNumber, hm0]
        rw [hsn]
        dsimp only
        obtain ⟨lt, hlt⟩ : ∃ lt, (m0 :: mrest).getLast? = some lt := by
          cases hgl : (m0 :: mrest).getLast? with
          | none => exact absurd (List.getLast?_eq_none_iff.mp hgl) (by simp)
          | some lt => exact ⟨lt, rfl⟩
        have hlook := hmp_last rfl lt (by rw [hmp]; exact hlt)
        have hstt : splitType (m0 :: mrest) = ([], m0 :: mrest) := by
          unfold splitType
          rw [hlt]
          dsimp only
          rw [if_neg (by rw [hlook]; exact Bool.false_ne_true)]
        rw [hstt]
        dsimp only
        rw [map_upChar_intercalate]
        rw [hmp] at hmp_idem
        rw [hmp_idem]
        rfl
    · rw [words_token hct_ne hctws]
      cases hmp : mp with
      | nil =>
        rw [List.nil_append]
        have hsn : splitNumber [ct] = ([], [ct]) := by simp [splitNumber, hctnum]
        rw [hsn]
        dsimp only
        have hstt : splitType [ct] = (ct, []) := by
          unfold splitType
          rw [show ([ct] : List (List Char)).getLast? = some ct from rfl]
          dsimp only
          rw [if_pos (by rw [hctup, hctlook]; rfl)]
          rfl
        rw [hstt]
        dsimp only
        rw [hctup, hctlook]
        rfl
      | cons m0 mrest =>
        have hm0 : isNumTok m0 = false := hhead rfl m0 (by rw [hmp]; rfl)
        have hsn : splitNumber ((m0 :: mrest) ++ [ct]) = ([], (m0 :: mrest) ++ [ct]) := by
          simp [splitNumber, hm0]
        rw [hsn]
        dsimp only
        have hstt : splitType ((m0 :: mrest) ++ [ct]) = (ct, m0 :: mrest) := by
          unfold splitType
          rw [List.getLast?_concat]
          dsimp only
          rw [if_pos (by rw [hctup, hctlook]; rfl), List.dropLast_concat]
        rw [hstt]
        dsimp only
        rw [map_upChar_intercalate]
        rw [hmp] at hmp_idem
        rw [hmp_idem, hctup, hctlook]
        rfl
  · rw [words_token hnum_ne hnumws, List.singleton_append]
    have hsn : splitNumber (num :: (mp ++ words ct)) = (num, mp ++ words ct) := by
      simp [splitNumber, hnt]
    rw [hsn]
    dsimp only
    rcases hct with hct0 | ⟨hct_ne, hctws, hctup, hctlook, hctnum⟩
    · subst hct0
      rw [words_nil, List.append_nil]
      cases hmp : mp with
      | nil =>
        have hstt : splitType ([] : List (List Char)) = ([], []) := rfl
        rw [hstt]
        dsimp only
        rfl
      | cons m0 mrest =>
        obtain ⟨lt, hlt⟩ : ∃ lt, (m0 :: mrest).getLast? = some lt := by
          cases hgl : (m0 :: mrest).getLast? with
          | none => exact absurd (List.getLast?_eq_none_iff.mp hgl) (by simp)
          | some lt => exact ⟨lt, rfl⟩
        have hlook := hmp_last rfl lt (by rw [hmp]; exact hlt)
        have hstt : splitType (m0 :: mrest) = ([], m0 :: mrest) := by
          unfold splitType
          rw [hlt]
          dsimp only
          rw [if_neg (by rw [hlook]; exact Bool.false_ne_true)]
        rw [hstt]
        dsimp only
        rw [map_upChar_intercalate]
        rw [hmp] at hmp_idem
        rw [hmp_idem]
        rfl
    · rw [words_token hct_ne hctws]
      have hstt : splitType (mp ++ [ct]) = (ct, mp) := by
        unfold splitType
        rw [List.getLast?_concat]
        dsimp only
        rw [if_pos (by rw [hctup, hctlook]; rfl), List.dropLast_concat]
      rw [hstt]
      dsimp only
      rw [map_upChar_intercalate, hmp_idem, hctup, hctlook]
      rfl

/-! ## Claim theorems -/

/-- C1, counterexample: the lookup resolver does not leave the non-ordinal
name "Shattuck" unchanged, and resolving "2700 Shattuck Ave" against a table
containing the row address "2700 Shattuck Av" returns no match, contrary to
the claim. -/
theorem C1_counterexample :
    normalize_street_name (lc "Shattuck") ≠ lc "Shattuck" ∧
    geocode_from_lookup (lc "2700 Shattuck Ave")
      [⟨lc "2700 Shattuck Av", 1, 2, none⟩] = none := by
  refine ⟨by decide, by decide⟩

/-- C1, amended: the name-conversion step uppercases (and strips) a
non-ordinal or already-numeral street name rather than passing it through
unchanged, so "2700 Shattuck Ave" is normalized to "2700 SHATTUCK Av" and
resolving it against a table containing the row address "2700 SHATTUCK Av"
returns that row's match. -/
theorem C1_nonordinal_uppercased_lookup :
    normalize_street_name (lc "Shattuck") = lc "SHATTUCK" ∧
    normalize_address_for_lookup (lc "2700 Shattuck Ave") = some (lc "2700 SHATTUCK Av") ∧
    geocode_from_lookup (lc "2700 Shattuck Ave")
        [⟨lc "2700 SHATTUCK Av", 1, 2, some (lc "123456")⟩] =
      some ⟨1, 2, some (lc "123456"), lc "2700 SHATTUCK Av", lc "2700 SHATTUCK Av"⟩ := by
  refine ⟨by decide, by decide, by decide⟩

/-- C2, counterexample: with more than three whitespace-delimited tokens the
resolver does not return NoMatch for every table — it drops the extra tokens
and queries the table, so "123 Multi Word Lane" matches a table containing
the row address "123 MULTI Word". -/
theorem C2_counterexample :
    geocode_from_lookup (lc "123 Multi Word Lane")
      [⟨lc "123 MULTI Word", 1, 2, none⟩] ≠ none := by
  decide

/-- C2, amended: the resolver returns NoMatch immediately, without consulting
the table, only when the input has fewer than three whitespace-delimited
tokens; with more than three tokens the tokens beyond the third are ignored
and the table is queried ("123 Multi Word Lane" is looked up as
"123 MULTI Word"). -/
theorem C2_token_count :
    (∀ a : List Char, ∀ table : List LookupRow,
      (words (trim a)).length < 3 → geocode_from_lookup a table = none) ∧
    normalize_address_for_lookup (lc "123 Multi Word Lane") = some (lc "123 MULTI Word") := by
  constructor
  · intro a table h
    unfold geocode_from_lookup normalize_address_for_lookup
    match hw : words (trim a) with
    | [] => rfl
    | [_] => rfl
    | [_, _] => rfl
    | _ :: _ :: _ :: _ =>
      exfalso
      rw [hw] at h
      simp only [List.length_cons] at h
      omega
  · decide

/-- C2, witness: "12 Foo" has fewer than three tokens and resolves to NoMatch
even against a nonempty table. -/
theorem C2_token_count_witness :
    (words (trim (lc "12 Foo"))).length < 3 ∧
    geocode_from_lookup (lc "12 Foo") [⟨lc "12 Foo", 1, 2, none⟩] = none :=
  ⟨by decide, C2_token_count.1 (lc "12 Foo") [⟨lc "12 Foo", 1, 2, none⟩] (by decide)⟩

/-- C3, counterexample: normalize is not idempotent — on "1 APT B APT C" the
first pass keeps "APT B" in the street name, and the second pass re-extracts
"B" as a unit, so normalizing twice differs from normalizing once. -/
theorem C3_counterexample :
    normalize_address (lc "1 APT B APT C") = lc "1 APT B" ∧
    normalize_address (normalize_address (lc "1 APT B APT C")) = lc "1" ∧
    normalize_address (normalize_address (lc "1 APT B APT C")) ≠
      normalize_address (lc "1 APT B APT C") := by
  refine ⟨by decide, by decide, by decide⟩

/-- C3, amended: normalize is idempotent on every input whose normalized form
does not itself end in a unit pattern, that is, whenever the unit-extraction
search finds nothing in the normalized output. -/
theorem C3_normalize_idempotent (x : List Char)
    (h : unitSearch (trim (normalize_address x)) = none) :
    normalize_address (normalize_address x) = normalize_address x := by
  by_cases hx : x = []
  · subst hx; rfl
  have hP := parse_address_eq hx
  have hN := normalize_address_eq hx
  rw [hP] at hN
  dsimp only at hN
  obtain ⟨num, parts2, hs1⟩ : ∃ a b, splitNumber (words (cleanedAddr x)) = (a, b) :=
    ⟨_, _, rfl⟩
  rw [hs1] at hN
  dsimp only at hN
  obtain ⟨st, nameParts, hs2⟩ : ∃ a b, splitType parts2 = (a, b) := ⟨_, _, rfl⟩
  rw [hs2] at hN
  dsimp only at hN
  rw [map_upChar_intercalate] at hN
  set mp := nameParts.map (List.map upChar) with hmp
  set ct := (typeToCanonical (st.map upChar)).getD (st.map upChar) with hct
  have hc1 := splitNumber_cases (words (cleanedAddr x))
  rw [hs1] at hc1
  dsimp only at hc1
  have hc2 := splitType_cases parts2
  rw [hs2] at hc2
  dsimp only at hc2
  have hWt : ∀ t ∈ words (cleanedAddr x), t ≠ [] ∧ ∀ c ∈ t, isWs c = false :=
    fun t ht => mem_words ht
  have hp2 : ∀ t ∈ parts2, t ∈ words (cleanedAddr x) :=
    fun t ht => splitNumber_snd_mem (by rw [hs1]; exact ht)
  have hnpt : ∀ t ∈ nameParts, t ≠ [] ∧ ∀ c ∈ t, isWs c = false :=
    fun t ht => hWt t (hp2 t (splitType_snd_mem (by rw [hs2]; exact ht)))
  have hmpt : ∀ t ∈ mp, t ≠ [] ∧ ∀ c ∈ t, isWs c = false := by
    intro t ht
    rcases List.mem_map.mp ht with ⟨t0, ht0, rfl⟩
    refine ⟨by simpa using (hnpt t0 ht0).1, ?_⟩
    intro c hc
    rcases List.mem_map.mp hc with ⟨c0, hc0, rfl⟩
    rw [isWs_upChar]
    exact (hnpt t0 ht0).2 c0 hc0
  have hnumd : num = [] ∨ (isNumTok num = true ∧ num ≠ [] ∧ ∀ c ∈ num, isWs c = false) := by
    rcases hc1 with ⟨h0, _⟩ | ⟨hm, hnt, _⟩
    · exact Or.inl h0
    · exact Or.inr ⟨hnt, (hWt num hm).1, (hWt num hm).2⟩
  have hpW : num = [] → parts2 = words (cleanedAddr x) := by
    intro h0
    rcases hc1 with ⟨_, he⟩ | ⟨_, hnt, _⟩
    · exact he
    · rw [h0, isNumTok_nil] at hnt
      exact Bool.noConfusion hnt
  have hnphead : ∀ n0, nameParts.head? = some n0 → parts2.head? = some n0 := by
    intro n0 hn0
    rcases hc2 with ⟨_, hnpeq⟩ | ⟨_, _, hnpeq⟩
    · rw [← hnpeq]; exact hn0
    · rw [hnpeq] at hn0
      have hne : parts2.dropLast ≠ [] := by
        intro hdl
        rw [hdl] at hn0
        exact Option.noConfusion hn0
      rw [← head?_dropLast_ne_nil (l := parts2) hne]
      exact hn0
  have hhead : num = [] → ∀ m0, mp.head? = some m0 → isNumTok m0 = false := by
    intro h0 m0 hm0
    rw [hmp, List.head?_map] at hm0
    rcases Option.map_eq_some'.mp hm0 with ⟨n0, hn0, rfl⟩
    rw [isNumTok_map_upChar]
    have hn0W : (words (cleanedAddr x)).head? = some n0 := by
      rw [← hpW h0]
      exact hnphead n0 hn0
    cases hW0 : words (cleanedAddr x) with
    | nil => rw [hW0] at hn0W; exact Option.noConfusion hn0W
    | cons w0 wr =>
      rw [hW0] at hn0W
      simp only [List.head?_cons, Option.some.injEq] at hn0W
      rw [hn0W] at hW0
      exact splitNumber_none (by rw [hs1]; exact h0) hW0
  have hctd : ct = [] ∨ (ct ≠ [] ∧ (∀ cc ∈ ct, isWs cc = false) ∧ ct.map upChar = ct ∧
      typeToCanonical ct = some ct ∧ isNumTok ct = false) := by
    rcases hc2 with ⟨hst0, _⟩ | ⟨_, hsome, _⟩
    · left
      rw [hct, hst0]
      simp [typeToCanonical_nil]
    · right
      obtain ⟨c, hc⟩ := Option.isSome_iff_exists.mp hsome
      have hcp := canon_props c (lookup_mem_snd hc)
      have hceq : ct = c := by rw [hct, hc]; rfl
      rw [hceq]
      exact ⟨hcp.1, hcp.2.1, hcp.2.2.1, hcp.2.2.2.1, hcp.2.2.2.2⟩
  have hmp_last : ct = [] → ∀ lt, mp.getLast? = some lt →
      (typeToCanonical (lt.map upChar)).isSome = false := by
    intro h0 lt hlt
    rw [hmp, List.getLast?_map] at hlt
    rcases Option.map_eq_some'.mp hlt with ⟨l0, hl0, rfl⟩
    rw [map_upChar_idem]
    rcases hc2 with ⟨hst0, hnpeq⟩ | ⟨_, hsome, _⟩
    · apply splitType_none parts2 l0
      · rw [hs2]; exact hst0
      · exact (hnpt l0 (List.mem_of_mem_getLast? hl0)).1
      · rw [← hnpeq]; exact hl0
    · exfalso
      obtain ⟨c, hc⟩ := Option.isSome_iff_exists.mp hsome
      have hceq : ct = c := by rw [hct, hc]; rfl
      have hcp := canon_props c (lookup_mem_snd hc)
      rw [hceq] at h0
      exact hcp.1 h0
  by_cases hy0 : normalize_address x = []
  · rw [hy0]; rfl
  have hyP := parse_address_eq hy0
  have hyN := normalize_address_eq hy0
  rw [hyP] at hyN
  dsimp only at hyN
  have hcy : cleanedAddr (normalize_address x) = trim (normalize_address x) := by
    simp only [cleanedAddr]
    rw [h]
  have hwy : words (cleanedAddr (normalize_address x)) = words num ++ (mp ++ words ct) := by
    rw [hcy, words_trim, hN, words_trim]
    unfold renderAddr
    rw [words_append_ws_cons ws_space, words_append_ws_cons ws_space,
      words_intercalate hmpt]
  rw [hwy] at hyN
  rw [hyN, hN]
  exact second_pass num ct mp hnumd hhead (mapped_parts_idem nameParts) hmp_last hctd

/-- C3, witness: "2700 Shattuck Avenue #101" normalizes to "2700 SHATTUCK AV",
which contains no unit pattern, so normalizing it again changes nothing. -/
theorem C3_normalize_idempotent_witness :
    unitSearch (trim (normalize_address (lc "2700 Shattuck Avenue #101"))) = none ∧
    normalize_address (normalize_address (lc "2700 Shattuck Avenue #101")) =
      normalize_address (lc "2700 Shattuck Avenue #101") :=
  ⟨by decide, C3_normalize_idempotent (lc "2700 Shattuck Avenue #101") (by decide)⟩

/-- C4, counterexample: the normalized form of "123 ST" is "123  ST", which
contains two consecutive space characters — the empty street name leaves the
two separator spaces adjacent, and strip() does not collapse them. -/
theorem C4_counterexample :
    normalize_address (lc "123 ST") = lc "123  ST" ∧
    hasDoubleSpace (normalize_address (lc "123 ST")) = true := by
  refine ⟨by decide, by decide⟩

/-- C4, amended: normalize parses the input, uppercases the street name,
canonicalizes the street type (uppercased literal as fallback), drops the
unit, and returns strip of the concatenation "{number} {NAME} {TYPE}"; when
all three parsed components are nonempty the result is exactly that
concatenation and never contains two consecutive spaces (an empty middle
component instead leaves a double space, as the counterexample shows). -/
theorem C4_format (x : List Char)
    (h1 : (parse_address x).street_number ≠ [])
    (h2 : (parse_address x).street_name ≠ [])
    (h3 : (parse_address x).street_type ≠ []) :
    normalize_address x =
      renderAddr (parse_address x).street_number
        ((parse_address x).street_name.map upChar)
        ((typeToCanonical ((parse_address x).street_type.map upChar)).getD
          ((parse_address x).street_type.map upChar)) ∧
    hasDoubleSpace (normalize_address x) = false := by
  have hx : x ≠ [] := by
    intro h
    rw [h] at h1
    exact h1 (by simp [parse_address])
  have hP := parse_address_eq hx
  rw [normalize_address_eq hx]
  rw [hP] at h1 h2 h3 ⊢
  dsimp only at h1 h2 h3 ⊢
  rcases splitNumber_cases (words (cleanedAddr x)) with ⟨he, _⟩ | ⟨hm, _, _⟩
  · exact absurd he h1
  rcases splitType_cases (splitNumber (words (cleanedAddr x))).2 with ⟨he, _⟩ | ⟨hm2, hsome, _⟩
  · exact absurd he h3
  obtain ⟨c, hc⟩ := Option.isSome_iff_exists.mp hsome
  have hcanon := canon_props c (lookup_mem_snd hc)
  have hnp : (splitType (splitNumber (words (cleanedAddr x))).2).2 ≠ [] := by
    intro h
    rw [h] at h2
    exact h2 rfl
  have hparts : ∀ t ∈ (splitType (splitNumber (words (cleanedAddr x))).2).2,
      t ≠ [] ∧ ∀ cc ∈ t, isWs cc = false :=
    fun t ht => mem_words (splitNumber_snd_mem (splitType_snd_mem ht))
  have hnumw := mem_words hm
  have hmain := render_format hnumw.1 hnumw.2 hnp hparts hcanon.1 hcanon.2.1
  rw [hc]
  simp only [Option.getD_some]
  exact ⟨hmain.1, by rw [hmain.1]; exact hmain.2⟩

/-- C4, witness: "123 Foo St" parses to three nonempty components, normalizes
to "123 FOO ST", and the result has no double space. -/
theorem C4_format_witness :
    ((parse_address (lc "123 Foo St")).street_number ≠ [] ∧
      (parse_address (lc "123 Foo St")).street_name ≠ [] ∧
      (parse_address (lc "123 Foo St")).street_type ≠ []) ∧
    normalize_address (lc "123 Foo St") =
      renderAddr (parse_address (lc "123 Foo St")).street_number
        ((parse_address (lc "123 Foo St")).street_name.map upChar)
        ((typeToCanonical ((parse_address (lc "123 Foo St")).street_type.map upChar)).getD
          ((parse_address (lc "123 Foo St")).street_type.map upChar)) ∧
    hasDoubleSpace (normalize_address (lc "123 Foo St")) = false := by
  refine ⟨⟨by decide, by decide, by decide⟩, ?_⟩
  exact C4_format (lc "123 Foo St") (by decide) (by decide) (by decide)

/-- C5: the variation set generated for ("1914", "FIFTH", "ST") contains both
"1914 5TH ST" and "1914 Fifth St". -/
theorem C5_variations_contain :
    lc "1914 5TH ST" ∈ generate_address_variations (lc "1914") (lc "FIFTH") (lc "ST") ∧
    lc "1914 Fifth St" ∈ generate_address_variations (lc "1914") (lc "FIFTH") (lc "ST") := by
  refine ⟨by decide, by decide⟩

/-- C6: when the coordinates fail the bounds check, add_manual_geocode
returns Rejected (False) and the table is returned completely unchanged, for
every address, APN and table. -/
theorem C6_reject_leaves_table (address : List Char) (latitude longitude : ℚ)
    (apn : Option (List Char)) (table : List LookupRow)
    (h : validate_coordinates latitude longitude (lc "Berkeley") = false) :
    add_manual_geocode address latitude longitude apn table = (false, table) := by
  unfold add_manual_geocode
  rw [h]
  rfl

/-- C6, witness: latitude 40 is out of bounds, and the one-row table comes
back unchanged. -/
theorem C6_reject_leaves_table_witness :
    validate_coordinates 40 (-122.27) (lc "Berkeley") = false ∧
    add_manual_geocode (lc "2700 Shattuck Ave") 40 (-122.27) none
      [⟨lc "1 A St", 1, 2, none⟩] = (false, [⟨lc "1 A St", 1, 2, none⟩]) := by
  have h : validate_coordinates 40 (-122.27) (lc "Berkeley") = false := by
    simp only [validate_coordinates, BERKELEY_BOUNDS]
    norm_num
  exact ⟨h, C6_reject_leaves_table (lc "2700 Shattuck Ave") 40 (-122.27) none
    [⟨lc "1 A St", 1, 2, none⟩] h⟩

/-- C7: the canonical normalizer performs no ordinal word/numeral conversion;
"FIFTH ST" and "5TH ST" each normalize to themselves and the two equality
keys are distinct. -/
theorem C7_distinct_ordinal_keys :
    normalize_address (lc "FIFTH ST") = lc "FIFTH ST" ∧
    normalize_address (lc "5TH ST") = lc "5TH ST" ∧
    normalize_address (lc "FIFTH ST") ≠ normalize_address (lc "5TH ST") := by
  refine ⟨by decide, by decide, by decide⟩

/-- C8: parse_address is total by construction, always preserves the raw
input verbatim in the original field, and on empty or whitespace-only
(unparseable) input returns all-empty component fields. -/
theorem C8_parse_total :
    (∀ s : List Char, (parse_address s).original = s) ∧
    (∀ s : List Char, (∀ c ∈ s, isWs c = true) →
      parse_address s = ⟨[], [], [], [], s⟩) := by
  constructor
  · intro s
    by_cases h : s = [] <;> simp [parse_address, h]
  · intro s hs
    by_cases h : s = []
    · simp [parse_address, h]
    · have htrim : trim s = [] := trim_eq_nil_of_all_ws hs
      simp [parse_address, h, cleanedAddr, extractUnit, htrim, unitSearch, words_nil,
        splitNumber, splitType, intercalate_nil_toks]

/-- C8, witness: the whitespace-only input "   " parses to all-empty
component fields with the original preserved. -/
theorem C8_parse_total_witness :
    (∀ c ∈ lc "   ", isWs c = true) ∧
    parse_address (lc "   ") = ⟨[], [], [], [], lc "   "⟩ :=
  ⟨by decide, C8_parse_total.2 (lc "   ") (by decide)⟩

/-- C9: for the region "Berkeley" the bounds check accepts exactly the closed
rectangle lat in [37.84, 37.91], lon in [-122.32, -122.23]; in particular
(37.87, -122.27) is accepted and (40.0, -122.27) is rejected. -/
theorem C9_berkeley_bounds :
    (∀ latitude longitude : ℚ,
      validate_coordinates latitude longitude (lc "Berkeley") = true ↔
        (37.84 ≤ latitude ∧ latitude ≤ 37.91 ∧
          -122.32 ≤ longitude ∧ longitude ≤ -122.23)) ∧
    validate_coordinates 37.87 (-122.27) (lc "Berkeley") = true ∧
    validate_coordinates 40 (-122.27) (lc "Berkeley") = false := by
  refine ⟨?_, ?_, ?_⟩
  · intro latitude longitude
    simp [validate_coordinates, BERKELEY_BOUNDS]
  · simp only [validate_coordinates, BERKELEY_BOUNDS]
    norm_num
  · simp only [validate_coordinates, BERKELEY_BOUNDS]
    norm_num

/-- C9, witness: the equivalence applied at the in-bounds point
(37.87, -122.27). -/
theorem C9_berkeley_bounds_witness :
    validate_coordinates 37.87 (-122.27) (lc "Berkeley") = true :=
  (C9_berkeley_bounds.1 37.87 (-122.27)).mpr (by norm_num)

/-- C10: every region name other than exactly "Berkeley" (including a
different casing such as "berkeley") makes the bounds check return false for
all coordinates. -/
theorem C10_other_regions_false (city : List Char) (h : city ≠ lc "Berkeley")
    (latitude longitude : ℚ) :
    validate_coordinates latitude longitude city = false := by
  unfold validate_coordinates
  rw [if_neg h]

/-- C10, witness: the lowercased region name "berkeley" rejects in-bounds
coordinates. -/
theorem C10_other_regions_false_witness :
    lc "berkeley" ≠ lc "Berkeley" ∧
    validate_coordinates 37.87 (-122.27) (lc "berkeley") = false :=
  ⟨by decide, C10_other_regions_false (lc "berkeley") (by decide) 37.87 (-122.27)⟩

end Berkeley
